import Mathlib

/-!
Verification development for the Drumless folder demuxer
(`demux_drumless.py`).  The Python source is shallowly embedded:
paths are lists of characters, external commands become oracle
parameters recording success or parsed output, and the per-track
orchestrator loop becomes an explicit state-passing function over a
small disk-state record.
-/

namespace Demux

/-- Lowercase every character of a path, modeling Python `str.lower()`. -/
def lowerL (l : List Char) : List Char := l.map Char.toLower

/-- True when the list holds a character that is neither `'.'` nor `'/'`
before the first `'/'`; models CPython `splitext`'s leading-dot scan
(read on a reversed list). -/
def nonDotPre : List Char → Bool
  | [] => false
  | c :: r =>
    if c = '/' then false
    else if c = '.' then nonDotPre r
    else true

/-- Scan a reversed path for the extension.  `acc` collects the characters
after the candidate dot (in forward order).  Returns `none` when a `'/'`
appears before any dot, or when every basename character before the last
dot is itself a dot — exactly CPython `os.path.splitext`. -/
def extScan (acc : List Char) : List Char → Option (List Char)
  | [] => none
  | c :: r =>
    if c = '/' then none
    else if c = '.' then (if nonDotPre r then some ('.' :: acc) else none)
    else extScan (c :: acc) r

/-- `os.path.splitext(p)[1]` as an option (`none` when the extension is `''`). -/
def extOfL (p : List Char) : Option (List Char) :=
  extScan [] p.reverse

/-- `os.path.splitext(p)[1]` with `''` represented as `[]`. -/
def extStr (p : List Char) : List Char :=
  (extOfL p).getD []

/-- `os.path.splitext(p)[0]`: everything before the extension. -/
def rootOf (p : List Char) : List Char :=
  p.take (p.length - (extStr p).length)

/-- Relative-path join used when modeling `os.walk` + `os.path.relpath`:
an empty prefix stands for the walk root. -/
def joinRel (pre name : List Char) : List Char :=
  if pre = [] then name else pre ++ '/' :: name

/-- `os.path.join(a, b)` for a relative `b`: inserts `'/'` unless `a` is
empty or already ends in `'/'`. -/
def joinP (a b : List Char) : List Char :=
  if a = [] then b
  else if a.getLast? = some '/' then a ++ b
  else a ++ '/' :: b

/-- `os.path.basename`: characters after the last `'/'`. -/
def basenameL (p : List Char) : List Char :=
  (p.reverse.takeWhile (fun c => c ≠ '/')).reverse

/-- `os.path.dirname`: characters before the last `'/'` (empty if none). -/
def dirnameL (p : List Char) : List Char :=
  ((p.reverse.dropWhile (fun c => c ≠ '/')).drop 1).reverse

/-- Lexicographic `≤` on character lists after mapping each character
through a key function; with `Char.toLower` it models Python's
`sorted(..., key=str.lower)` comparison, with `id` plain string `≤`. -/
def charKeyLe (k : Char → Char) : List Char → List Char → Bool
  | [], _ => true
  | _ :: _, [] => false
  | a :: as, b :: bs =>
    if k a = k b then charKeyLe k as bs else decide (k a < k b)

/-- Python's substring test `pat in s`. -/
def containsSub (pat : List Char) : List Char → Bool
  | [] => pat.isEmpty
  | c :: r => pat.isPrefixOf (c :: r) || containsSub pat r

/-- Case-insensitive path order (Python `key=lambda p: p.lower()`). -/
def pathLe (a b : List Char) : Prop := charKeyLe Char.toLower a b = true

/-- Code-point path order (Python default string `sorted`). -/
def codeLe (a b : List Char) : Prop := charKeyLe id a b = true

instance : DecidableRel pathLe := fun a b =>
  inferInstanceAs (Decidable (charKeyLe Char.toLower a b = true))

instance : DecidableRel codeLe := fun a b =>
  inferInstanceAs (Decidable (charKeyLe id a b = true))

/-- Supported input extensions (`SUPPORTED_INPUT_EXTENSIONS` in the source),
matched case-insensitively. -/
def SUPPORTED_INPUT_EXTENSIONS : List (List Char) :=
  [".flac".data, ".wav".data, ".m4a".data, ".mp4".data, ".mp3".data, ".alac".data]

/-- Extension test from `find_audio_files`:
`os.path.splitext(filename)[1].lower() in extensions`. -/
def extIn (filename : List Char) : Bool :=
  SUPPORTED_INPUT_EXTENSIONS.contains (lowerL (extStr filename))

/-- Directory filter from `find_audio_files`:
`d.lower() != "separated" and not d.lower().startswith("normalised")`. -/
def keepDir (d : List Char) : Bool :=
  !(lowerL d == "separated".data) && !("normalised".data.isPrefixOf (lowerL d))

mutual
/-- A directory tree: subdirectory entries (name, subtree) plus the file
names of the current directory. -/
inductive FSTree : Type where
  | node : FSEntries → List (List Char) → FSTree
/-- Subdirectory entries of a directory: a list of (name, subtree). -/
inductive FSEntries : Type where
  | nil : FSEntries
  | cons : List Char → FSTree → FSEntries → FSEntries
end

mutual
/-- The `os.walk` traversal of `find_audio_files`: current directory's
matching files first (as root-relative paths), then the kept
subdirectories in order, recursively. -/
def walkTree : FSTree → List Char → List (List Char)
  | .node subs files, pre =>
    (files.filter extIn).map (joinRel pre) ++ walkSubs subs pre
/-- Walk over the kept subdirectory entries. -/
def walkSubs : FSEntries → List Char → List (List Char)
  | .nil, _ => []
  | .cons d t rest, pre =>
    (if keepDir d then walkTree t (joinRel pre d) else []) ++ walkSubs rest pre
end

/-- `find_audio_files`: walk the tree, then
`sorted(audio_paths, key=lambda p: p.lower())`. -/
def find_audio_files (t : FSTree) : List (List Char) :=
  List.insertionSort pathLe (walkTree t [])

mutual
/-- Accessibility of a file in a tree: `TreePath t dirs f` holds when
descending through the subdirectory names `dirs` from the root of `t`
reaches a directory listing file `f`. -/
inductive TreePath : FSTree → List (List Char) → List Char → Prop where
  | here {subs : FSEntries} {files : List (List Char)} {f : List Char} :
      f ∈ files → TreePath (.node subs files) [] f
  | there {subs : FSEntries} {files : List (List Char)} {dirs : List (List Char)} {f : List Char} :
      EntriesPath subs dirs f → TreePath (.node subs files) dirs f
/-- Accessibility of a file through a list of subdirectory entries. -/
inductive EntriesPath : FSEntries → List (List Char) → List Char → Prop where
  | head {d : List Char} {t : FSTree} {rest : FSEntries} {dirs : List (List Char)} {f : List Char} :
      TreePath t dirs f → EntriesPath (.cons d t rest) (d :: dirs) f
  | tail {d : List Char} {t : FSTree} {rest : FSEntries} {dirs : List (List Char)} {f : List Char} :
      EntriesPath rest dirs f → EntriesPath (.cons d t rest) dirs f
end

/-- `run_command`: runs a shell command, returns `(success, stdout?)`.
The external process is an oracle: `ok` is whether it exits zero, `out`
its captured output. -/
def run_command (ok : Bool) (out : List Char) (capture : Bool) : Bool × Option (List Char) :=
  if ok then (true, if capture then some out else none) else (false, none)

/-- `apply_replaygain_track`: invokes `rsgain custom ... "<file>"` and
discards the returned status; the function prints nothing, so its emitted
message list is empty whatever the command did. -/
def apply_replaygain_track (rsgainOk : Bool) : List (List Char) :=
  let _r := run_command rsgainOk [] false
  []

/-- `apply_replaygain_album`: invokes `rsgain custom ... --album <files>`
and discards the returned status; prints nothing. -/
def apply_replaygain_album (rsgainOk : Bool) (_filePaths : List (List Char)) : List (List Char) :=
  let _r := run_command rsgainOk [] false
  []

/-- The stem-selection expression shared textually by `detect_peak_level`:
`sorted([f for f in glob.glob(f"{wav_dir}/*.wav") if "drums" not in f.lower()])`.
`wavDirFiles` is the directory listing; glob `*.wav` keeps names ending in
`.wav` (case-sensitive), the comprehension drops names whose lowercase form
contains `drums`, and `sorted` is Python's default code-point sort. -/
def selectWavs_detect (wavDirFiles : List (List Char)) : List (List Char) :=
  List.insertionSort codeLe
    (wavDirFiles.filter
      (fun f => ".wav".data.isSuffixOf f && !(containsSub "drums".data (lowerL f))))

/-- `detect_peak_level`: `None` when no qualifying wav files exist;
otherwise the `max_volume` value parsed from the ffmpeg run, itself an
oracle (`parsedPeak = none` models command failure or unparsable output). -/
def detect_peak_level (wavDirFiles : List (List Char)) (parsedPeak : Option ℚ) : Option ℚ :=
  let wav_files := selectWavs_detect wavDirFiles
  if wav_files.isEmpty then none else parsedPeak

/-- The same selection expression as written in `merge_audio_files`. -/
def selectWavs_merge (wavDirFiles : List (List Char)) : List (List Char) :=
  List.insertionSort codeLe
    (wavDirFiles.filter
      (fun f => ".wav".data.isSuffixOf f && !(containsSub "drums".data (lowerL f))))

/-- `merge_audio_files`: `False` when no qualifying wav files exist,
otherwise the success of the ffmpeg amix invocation (oracle `ffmpegOk`);
`gain_db` only changes the filter string, not the outcome structure. -/
def merge_audio_files (wavDirFiles : List (List Char)) (_gain_db : Option ℚ)
    (ffmpegOk : Bool) : Bool :=
  let wav_files := selectWavs_merge wavDirFiles
  if wav_files.isEmpty then false else ffmpegOk

/-- Gain policy of `main` (lines 584-588): `gain_db = -(peak + 0.1)` when
`peak > -0.1`, else no gain. Decibel values are rationals. -/
def computeGain (peak : ℚ) : Option ℚ :=
  if peak > -(1/10) then some (-(peak + 1/10)) else none

/-- The output name computed in `main`:
`f"{filename} - Drumless.flac"` with `filename = os.path.splitext(file)[0]`. -/
def output_filename (file : List Char) : List Char :=
  rootOf file ++ " - Drumless.flac".data

/-- Modelled from the spec: the spec's naming rule
"`<original-stem> - Drumless.<container>`" where `<container>` is the
Track's own original file extension. For comparison with
`output_filename`, which is what the code computes. -/
def outputFilenameSpec (file : List Char) : List Char :=
  rootOf file ++ " - Drumless".data ++ extStr file

/-- On-disk scratch state tracked across the orchestrator loop: whether
the shared `separated` directory and the per-directory `staging.flac`
exist. -/
structure DiskState where
  separatedExists : Bool
  stagingExists : Bool
deriving DecidableEq, Repr

/-- Oracle outcomes for one Track's external steps: separation success,
the detected peak (with `none` for detection failure), merge success,
metadata-remux success, and the rsgain exit status. -/
structure TrackEnv where
  file : List Char
  sepOk : Bool
  peak : Option ℚ
  mergeOk : Bool
  metaOk : Bool
  rsgainOk : Bool
deriving DecidableEq

/-- Result of one per-Track iteration: disk state at the end of the
iteration, whether the output path was appended to `final_files_list`,
whether the merge and metadata steps ran and succeeded, and the gain
argument passed to `merge_audio_files` (if merge was reached). -/
structure TrackResult where
  disk : DiskState
  appended : Bool
  mergeSucceeded : Bool
  metaSucceeded : Bool
  gainUsed : Option ℚ
deriving DecidableEq

/-- One iteration of the per-Track loop in `main` (lines 544-641).
Each failure branch performs `if os.path.exists(x): remove(x)`, so after
it the artifact does not exist regardless of whether it existed before;
the success branch removes both artifacts unconditionally.  Separation
failure and peak-detection failure do not touch `staging.flac`. -/
def processTrack (isComp : Bool) (env : TrackEnv) (d : DiskState) : TrackResult :=
  if env.sepOk = false then
    { disk := { separatedExists := false, stagingExists := d.stagingExists },
      appended := false, mergeSucceeded := false, metaSucceeded := false, gainUsed := none }
  else
    match env.peak with
    | none =>
      { disk := { separatedExists := false, stagingExists := d.stagingExists },
        appended := false, mergeSucceeded := false, metaSucceeded := false, gainUsed := none }
    | some p =>
      let gain := computeGain p
      if env.mergeOk = false then
        { disk := { separatedExists := false, stagingExists := false },
          appended := false, mergeSucceeded := false, metaSucceeded := false, gainUsed := gain }
      else if env.metaOk = false then
        { disk := { separatedExists := false, stagingExists := false },
          appended := false, mergeSucceeded := true, metaSucceeded := false, gainUsed := gain }
      else
        let _rg := if isComp then apply_replaygain_track env.rsgainOk else []
        { disk := { separatedExists := false, stagingExists := false },
          appended := true, mergeSucceeded := true, metaSucceeded := true, gainUsed := gain }

/-- The whole `for file in audio_files` loop, threading disk state and
accumulating `final_files_list` in order. -/
def runLoop (isComp : Bool) : List TrackEnv → DiskState → DiskState × List (List Char)
  | [], d => (d, [])
  | e :: rest, d =>
    let r := processTrack isComp e d
    let next := runLoop isComp rest r.disk
    (next.1, (if r.appended then [output_filename e.file] else []) ++ next.2)

/-- `main` after the loop: album-mode rsgain for non-compilations (status
discarded), then the unconditional final removal of `separated`. -/
def runMain (isComp albumOk : Bool) (envs : List TrackEnv) (d0 : DiskState) :
    DiskState × List (List Char) :=
  let lr := runLoop isComp envs d0
  let _rg := if !isComp && !lr.2.isEmpty then apply_replaygain_album albumOk lr.2 else []
  ({ lr.1 with separatedExists := false }, lr.2)

/-- A destination FLAC file on disk, as far as `copy_artwork` observes it:
its list of embedded pictures (of abstract content `α`). -/
structure FlacDisk (α : Type) where
  pictures : List α
deriving DecidableEq

/-- `copy_artwork`: open the destination (`openOk = false` models the
`except` branch, which returns `False` touching nothing), clear the
in-memory picture list, extract source pictures (`sourcePictures` is the
`extract_pictures` result), and only when some were found add them all and
`save()`.  The no-artwork branch returns `False` without saving, so the
destination file on disk keeps whatever pictures it had. -/
def copy_artwork {α : Type} (openOk : Bool) (sourcePictures : List α)
    (dest : FlacDisk α) : Bool × FlacDisk α :=
  if openOk = false then (false, dest)
  else
    let memPictures : List α := []
    if sourcePictures.isEmpty = false then
      (true, { pictures := memPictures ++ sourcePictures })
    else
      (false, dest)

/-- A FLAC tag map: key to value (mutagen Vorbis comments store value
lists; the script only ever sets single values). -/
def Tags : Type := String → Option String

/-- `audio[key] = value` on a FLAC tag map. -/
def setTag (t : Tags) (key value : String) : Tags :=
  fun k => if k = key then some value else t k

/-- `set_flac_tags`: sets every pair of the dict in order and saves;
the `except` branch (`openOk = false`) returns `False` leaving the file
unchanged. -/
def set_flac_tags (openOk : Bool) (t : Tags) (tagsDict : List (String × String)) :
    Bool × Tags :=
  if openOk then (true, tagsDict.foldl (fun a kv => setTag a kv.1 kv.2) t) else (false, t)

/-- The `tags_to_set` dict built in `main` (lines 635-640). -/
def tags_to_set (demucsModel : String) : List (String × String) :=
  [("COMMENT", "Drumless (Lossless)"),
   ("DESCRIPTION", "Stem Separation Model = " ++ demucsModel),
   ("REPLAYGAIN_REFERENCE_LOUDNESS", "-23 LUFS"),
   ("REPLAYGAIN_ALGORITHM", "ITU-R BS.1770")]

/-- Oracle outcomes for one file of the normalization sub-pipeline:
whether the FLAC still exists on disk, whether
`normalize_and_convert_to_mp3` succeeded, and whether
`copy_metadata_flac_to_mp3` succeeded. -/
structure NormInput where
  path : List Char
  onDisk : Bool
  transcodeOk : Bool
  metaOk : Bool
deriving DecidableEq

/-- The MP3 path built in `process_normalization`:
`os.path.join(dirname or ".", "Normalised", stem(basename) + ".mp3")`. -/
def mp3Name (flacFile : List Char) : List Char :=
  let sourceDir := if dirnameL flacFile = [] then ".".data else dirnameL flacFile
  let normalizedDir := joinP sourceDir "Normalised".data
  joinP normalizedDir (rootOf (basenameL flacFile) ++ ".mp3".data)

/-- The `for flac_file in final_files_list` loop of
`process_normalization`: missing files and transcode failures `continue`
before the append; a metadata-copy failure is only printed (the branch
does not `continue`), so the append still happens. -/
def buildMp3List : List NormInput → List (List Char)
  | [] => []
  | i :: rest =>
    if i.onDisk = false then buildMp3List rest
    else if i.transcodeOk = false then buildMp3List rest
    else
      let _warn := if i.metaOk = false then run_command false [] false else (true, none)
      mp3Name i.path :: buildMp3List rest

/-- `process_normalization`: build the MP3 list, then apply rsgain (track
mode per file for compilations, album mode otherwise) with the status
discarded, and return the list. -/
def process_normalization (inputs : List NormInput) (isComp rsgainOk : Bool) :
    List (List Char) :=
  let mp3_files := buildMp3List inputs
  let _rg :=
    if !mp3_files.isEmpty then
      (if isComp then (mp3_files.map (fun _ => apply_replaygain_track rsgainOk)).flatten
       else apply_replaygain_album rsgainOk mp3_files)
    else []
  mp3_files

end Demux

namespace Demux

theorem charKeyLe_total (k : Char → Char) :
    ∀ a b, charKeyLe k a b = true ∨ charKeyLe k b a = true := by
  intro a
  induction a with
  | nil => intro b; left; simp [charKeyLe]
  | cons x xs ih =>
    intro b
    cases b with
    | nil => right; simp [charKeyLe]
    | cons y ys =>
      by_cases hxy : k x = k y
      · rcases ih ys with h | h
        · left; simp [charKeyLe, hxy, h]
        · right; simp [charKeyLe, hxy.symm, h]
      · rcases lt_or_gt_of_ne hxy with h | h
        · left; simp [charKeyLe, hxy, h]
        · right
          have hyx : k y ≠ k x := fun e => hxy e.symm
          simp [charKeyLe, hyx, h]

theorem charKeyLe_trans (k : Char → Char) :
    ∀ a b c, charKeyLe k a b = true → charKeyLe k b c = true →
      charKeyLe k a c = true := by
  intro a
  induction a with
  | nil => intro b c _ _; simp [charKeyLe]
  | cons x xs ih =>
    intro b c hab hbc
    cases b with
    | nil => simp [charKeyLe] at hab
    | cons y ys =>
      cases c with
      | nil => simp [charKeyLe] at hbc
      | cons z zs =>
        by_cases hxy : k x = k y
        · by_cases hyz : k y = k z
          · have hxz : k x = k z := hxy.trans hyz
            simp only [charKeyLe, hxy, if_pos rfl] at hab
            simp only [charKeyLe, hyz, if_pos rfl] at hbc
            simp [charKeyLe, hxz, ih ys zs hab hbc]
          · simp only [charKeyLe, if_neg hyz] at hbc
            have hlt : k y < k z := by simpa using hbc
            have hxz : k x < k z := hxy ▸ hlt
            simp [charKeyLe, ne_of_lt hxz, hxz]
        · simp only [charKeyLe, if_neg hxy] at hab
          have hlt : k x < k y := by simpa using hab
          by_cases hyz : k y = k z
          · have hxz : k x < k z := hyz ▸ hlt
            simp [charKeyLe, ne_of_lt hxz, hxz]
          · simp only [charKeyLe, if_neg hyz] at hbc
            have hlt2 : k y < k z := by simpa using hbc
            have hxz : k x < k z := lt_trans hlt hlt2
            simp [charKeyLe, ne_of_lt hxz, hxz]

instance : IsTotal (List Char) pathLe :=
  ⟨charKeyLe_total Char.toLower⟩

instance : IsTrans (List Char) pathLe :=
  ⟨charKeyLe_trans Char.toLower⟩

instance : IsTotal (List Char) codeLe :=
  ⟨charKeyLe_total id⟩

instance : IsTrans (List Char) codeLe :=
  ⟨charKeyLe_trans id⟩

end Demux

namespace Demux

/-- Helper: one iteration ends with both scratch artifacts absent,
provided no staged file existed when the iteration began. -/
theorem processTrack_disk (isComp : Bool) (env : TrackEnv) (d : DiskState)
    (hd : d.stagingExists = false) :
    (processTrack isComp env d).disk = ⟨false, false⟩ := by
  by_cases hs : env.sepOk = false
  · simp [processTrack, hs, hd]
  · cases hpk : env.peak with
    | none => simp [processTrack, hs, hpk, hd]
    | some p =>
      by_cases hm : env.mergeOk = false
      · simp [processTrack, hs, hpk, hm]
      · by_cases hmd : env.metaOk = false
        · simp [processTrack, hs, hpk, hm, hmd]
        · simp [processTrack, hs, hpk, hm, hmd]

/-- Helper: the staging-absent invariant is preserved through the loop. -/
theorem runLoop_staging (isComp : Bool) :
    ∀ (envs : List TrackEnv) (d : DiskState), d.stagingExists = false →
      ((runLoop isComp envs d).1).stagingExists = false := by
  intro envs
  induction envs with
  | nil => intro d hd; simpa [runLoop] using hd
  | cons e rest ih =>
    intro d hd
    have h := processTrack_disk isComp e d hd
    have := ih (processTrack isComp e d).disk (by rw [h])
    simpa [runLoop] using this

/-- C1: at the end of each per-Track iteration neither the scratch
`separated` directory nor the `staging.flac` file exists on disk,
regardless of where the iteration succeeded or failed (given the
loop invariant that no staged file exists when the iteration starts,
which is preserved across the whole loop); and after the loop `main`
unconditionally removes the `separated` directory once more. -/
theorem c1_cleanup_invariant (isComp albumOk : Bool) (env : TrackEnv)
    (d : DiskState) (envs : List TrackEnv) (d0 d1 : DiskState)
    (hd : d.stagingExists = false) (h0 : d0.stagingExists = false) :
    (processTrack isComp env d).disk = ⟨false, false⟩
    ∧ ((runLoop isComp envs d0).1).stagingExists = false
    ∧ ((runMain isComp albumOk envs d1).1).separatedExists = false := by
  refine ⟨processTrack_disk isComp env d hd, runLoop_staging isComp envs d0 h0, ?_⟩
  simp [runMain]

/-- Witness for C1 at concrete inputs (note the end-of-run removal holds
even from a dirty state `d1`). -/
theorem c1_cleanup_invariant_witness :
    (processTrack false ⟨"A.flac".data, true, some 0, true, true, true⟩
        ⟨true, false⟩).disk = ⟨false, false⟩
    ∧ ((runLoop false [⟨"A.flac".data, false, none, false, false, false⟩]
        ⟨false, false⟩).1).stagingExists = false
    ∧ ((runMain false true [⟨"A.flac".data, false, none, false, false, false⟩]
        ⟨true, true⟩).1).separatedExists = false :=
  c1_cleanup_invariant false true ⟨"A.flac".data, true, some 0, true, true, true⟩
    ⟨true, false⟩ [⟨"A.flac".data, false, none, false, false, false⟩]
    ⟨false, false⟩ ⟨true, true⟩ rfl rfl

/-- C3: when a peak `p` was detected, the gain passed on to
`merge_audio_files` is `computeGain p`; for `p > -0.1` that gain is
`-(p + 0.1)`, making `p + gain` exactly `-0.1`, and for `p ≤ -0.1` no
gain is applied (`None`). -/
theorem c3_gain_policy (isComp : Bool) (env : TrackEnv) (d : DiskState) (p : ℚ)
    (hsep : env.sepOk = true) (hp : env.peak = some p) :
    (processTrack isComp env d).gainUsed = computeGain p
    ∧ (p > -(1/10) →
        computeGain p = some (-(p + 1/10)) ∧ p + (-(p + 1/10)) = -(1/10))
    ∧ (p ≤ -(1/10) → computeGain p = none) := by
  refine ⟨?_, fun hgt => ⟨by unfold computeGain; rw [if_pos hgt], by ring⟩,
    fun hle => by unfold computeGain; rw [if_neg (not_lt.mpr hle)]⟩
  by_cases hm : env.mergeOk = false
  · simp [processTrack, hsep, hp, hm]
  · by_cases hmd : env.metaOk = false
    · simp [processTrack, hsep, hp, hm, hmd]
    · simp [processTrack, hsep, hp, hm, hmd]

/-- Witness for C3 at peak `0` dB (above the threshold) for a fully
successful Track. -/
theorem c3_gain_policy_witness :
    (processTrack false ⟨"A.flac".data, true, some 0, true, true, true⟩
        ⟨false, false⟩).gainUsed = computeGain 0
    ∧ ((0 : ℚ) > -(1/10) →
        computeGain 0 = some (-((0 : ℚ) + 1/10)) ∧ (0 : ℚ) + (-((0 : ℚ) + 1/10)) = -(1/10))
    ∧ ((0 : ℚ) ≤ -(1/10) → computeGain 0 = none) :=
  c3_gain_policy false ⟨"A.flac".data, true, some 0, true, true, true⟩
    ⟨false, false⟩ 0 rfl rfl

/-- C4: the Track's output path is appended to `final_files_list` exactly
when both the merge step and the metadata-remux step ran and succeeded;
a failure at separation or peak detection (stages before merge) keeps the
Track out of the list; and the loop emits the output name precisely for
appended Tracks. -/
theorem c4_append_iff (isComp : Bool) (env : TrackEnv) (d : DiskState)
    (envs : List TrackEnv) :
    ((processTrack isComp env d).appended
      = ((processTrack isComp env d).mergeSucceeded
          && (processTrack isComp env d).metaSucceeded))
    ∧ (env.sepOk = false ∨ env.peak = none →
        (processTrack isComp env d).appended = false)
    ∧ (runLoop isComp (env :: envs) d).2
        = (if (processTrack isComp env d).appended
            then [output_filename env.file] else [])
          ++ (runLoop isComp envs (processTrack isComp env d).disk).2 := by
  refine ⟨?_, ?_, rfl⟩
  · by_cases hs : env.sepOk = false
    · simp [processTrack, hs]
    · cases hpk : env.peak with
      | none => simp [processTrack, hs, hpk]
      | some p =>
        by_cases hm : env.mergeOk = false
        · simp [processTrack, hs, hpk, hm]
        · by_cases hmd : env.metaOk = false
          · simp [processTrack, hs, hpk, hm, hmd]
          · simp [processTrack, hs, hpk, hm, hmd]
  · rintro (hs | hpk)
    · simp [processTrack, hs]
    · by_cases hs : env.sepOk = false
      · simp [processTrack, hs]
      · simp [processTrack, hs, hpk]

/-- Witness for C4: a Track whose metadata remux failed is not appended. -/
theorem c4_append_iff_witness :
    ((processTrack false ⟨"A.flac".data, true, some 0, true, false, true⟩
        ⟨false, false⟩).appended
      = ((processTrack false ⟨"A.flac".data, true, some 0, true, false, true⟩
          ⟨false, false⟩).mergeSucceeded
          && (processTrack false ⟨"A.flac".data, true, some 0, true, false, true⟩
              ⟨false, false⟩).metaSucceeded))
    ∧ ((⟨"A.flac".data, true, some 0, true, false, true⟩ : TrackEnv).sepOk = false
        ∨ (⟨"A.flac".data, true, some 0, true, false, true⟩ : TrackEnv).peak = none →
        (processTrack false ⟨"A.flac".data, true, some 0, true, false, true⟩
          ⟨false, false⟩).appended = false)
    ∧ (runLoop false (⟨"A.flac".data, true, some 0, true, false, true⟩ :: [])
        ⟨false, false⟩).2
        = (if (processTrack false ⟨"A.flac".data, true, some 0, true, false, true⟩
              ⟨false, false⟩).appended
            then [output_filename ("A.flac".data)] else [])
          ++ (runLoop false []
              (processTrack false ⟨"A.flac".data, true, some 0, true, false, true⟩
                ⟨false, false⟩).disk).2 :=
  c4_append_iff false ⟨"A.flac".data, true, some 0, true, false, true⟩ ⟨false, false⟩ []

/-- C10: the loudness-adapter wrappers discard the external command's
status: both emit no message of their own whatever the status; one
Track's processing is unchanged by its rsgain status; the run's result
list is unchanged by the album-mode status; and the normalization MP3
list is unchanged by the rsgain status. -/
theorem c10_rsgain_discarded (isComp b albumOk1 albumOk2 rs1 rs2 comp2 : Bool)
    (env : TrackEnv) (d : DiskState) (envs : List TrackEnv) (d0 : DiskState)
    (paths : List (List Char)) (inputs : List NormInput) :
    processTrack isComp { env with rsgainOk := b } d = processTrack isComp env d
    ∧ apply_replaygain_track b = []
    ∧ apply_replaygain_album b paths = []
    ∧ (runMain isComp albumOk1 envs d0).2 = (runMain isComp albumOk2 envs d0).2
    ∧ process_normalization inputs comp2 rs1 = process_normalization inputs comp2 rs2 := by
  refine ⟨?_, rfl, rfl, rfl, rfl⟩
  cases env
  rfl

/-- C2 counterexample: for the input `B.wav` the code names the output
`B - Drumless.flac`, while the claim's rule `<stem> - Drumless.<container>`
with the Track's own container gives `B - Drumless.wav`. -/
theorem c2_counterexample :
    output_filename "B.wav".data = "B - Drumless.flac".data
    ∧ outputFilenameSpec "B.wav".data = "B - Drumless.wav".data
    ∧ output_filename "B.wav".data ≠ outputFilenameSpec "B.wav".data :=
  ⟨by decide, by decide, by decide⟩

/-- C2 amended: the Final Output File is always named
`<original-stem> - Drumless.flac`: its container extension is `.flac`
for every input, and the spec's naming formula agrees with the code
exactly when the Track itself is a FLAC file. -/
theorem c2_amended (file g : List Char) (hext : extStr g = ".flac".data) :
    extOfL (output_filename file) = some ".flac".data
    ∧ output_filename g = outputFilenameSpec g := by
  constructor
  · unfold output_filename extOfL
    rw [List.reverse_append]
    have h : (" - Drumless.flac".data).reverse = "calf.sselmurD - ".data := by decide
    rw [h]
    show extScan []
      (['c', 'a', 'l', 'f', '.', 's', 's', 'e', 'l', 'm', 'u', 'r', 'D', ' ', '-', ' ']
        ++ (rootOf file).reverse) = some ['.', 'f', 'l', 'a', 'c']
    simp [extScan, nonDotPre]
  · unfold output_filename outputFilenameSpec
    rw [hext, List.append_assoc]
    congr 1

/-- Witness for C2 amended: a non-FLAC input still yields a `.flac`
output, and for a FLAC input the code's name matches the spec formula. -/
theorem c2_amended_witness :
    extOfL (output_filename "X.wav".data) = some ".flac".data
    ∧ output_filename "B.flac".data = outputFilenameSpec "B.flac".data :=
  c2_amended "X.wav".data "B.flac".data (by decide)

/-- C5 counterexample: calling `copy_artwork` with no source artwork on a
destination that holds one picture returns the non-fatal failure, but the
destination file on disk still holds that picture — not zero pictures —
because `clear_pictures` is only in memory and `save()` is never reached
on that branch. -/
theorem c5_counterexample :
    (copy_artwork true ([] : List Nat) ⟨[7]⟩).1 = false
    ∧ (copy_artwork true ([] : List Nat) ⟨[7]⟩).2.pictures = [7]
    ∧ (copy_artwork true ([] : List Nat) ⟨[7]⟩).2.pictures ≠ [] :=
  ⟨rfl, rfl, by decide⟩

/-- C5 amended: when source artwork exists, the saved destination holds
exactly the extracted pictures (prior ones cleared before writing); when
no source artwork is found the call reports non-fatal failure without
saving, leaving the destination file on disk unchanged, with whatever
pictures it already had. -/
theorem c5_amended {α : Type} (src : List α) (dest : FlacDisk α) :
    (src ≠ [] → copy_artwork true src dest = (true, ⟨src⟩))
    ∧ (src = [] → copy_artwork true src dest = (false, dest)) := by
  cases src with
  | nil => exact ⟨fun h => absurd rfl h, fun _ => rfl⟩
  | cons a as => exact ⟨fun _ => rfl, fun h => by cases h⟩

/-- Witness for C5 amended at concrete pictures. -/
theorem c5_amended_witness :
    (([5] : List Nat) ≠ [] →
      copy_artwork true [5] (⟨[9]⟩ : FlacDisk Nat) = (true, ⟨[5]⟩))
    ∧ (([5] : List Nat) = [] →
      copy_artwork true [5] (⟨[9]⟩ : FlacDisk Nat) = (false, ⟨[9]⟩)) :=
  c5_amended [5] ⟨[9]⟩

/-- C7: the tag-stamping step sets exactly the four tags `COMMENT`,
`DESCRIPTION`, `REPLAYGAIN_REFERENCE_LOUDNESS`, `REPLAYGAIN_ALGORITHM`
with their literal values (the description naming the chosen model), and
every other key is left exactly as it was. -/
theorem c7_tag_stamp (m : String) (t0 : Tags) (ok : Bool) (hok : ok = true) :
    ((set_flac_tags ok t0 (tags_to_set m)).2 "COMMENT" = some "Drumless (Lossless)")
    ∧ ((set_flac_tags ok t0 (tags_to_set m)).2 "DESCRIPTION"
        = some ("Stem Separation Model = " ++ m))
    ∧ ((set_flac_tags ok t0 (tags_to_set m)).2 "REPLAYGAIN_REFERENCE_LOUDNESS"
        = some "-23 LUFS")
    ∧ ((set_flac_tags ok t0 (tags_to_set m)).2 "REPLAYGAIN_ALGORITHM"
        = some "ITU-R BS.1770")
    ∧ ∀ k : String, k ≠ "COMMENT" → k ≠ "DESCRIPTION" →
        k ≠ "REPLAYGAIN_REFERENCE_LOUDNESS" → k ≠ "REPLAYGAIN_ALGORITHM" →
        (set_flac_tags ok t0 (tags_to_set m)).2 k = t0 k := by
  subst hok
  exact ⟨by simp [set_flac_tags, tags_to_set, setTag],
    by simp [set_flac_tags, tags_to_set, setTag],
    by simp [set_flac_tags, tags_to_set, setTag],
    by simp [set_flac_tags, tags_to_set, setTag],
    fun k h1 h2 h3 h4 => by simp [set_flac_tags, tags_to_set, setTag, h1, h2, h3, h4]⟩

/-- Witness for C7 on an empty starting tag map and the default model. -/
theorem c7_tag_stamp_witness :
    ((set_flac_tags true (fun _ => none) (tags_to_set "BS-Roformer-SW.ckpt")).2 "COMMENT"
        = some "Drumless (Lossless)")
    ∧ ((set_flac_tags true (fun _ => none) (tags_to_set "BS-Roformer-SW.ckpt")).2 "DESCRIPTION"
        = some ("Stem Separation Model = " ++ "BS-Roformer-SW.ckpt"))
    ∧ ((set_flac_tags true (fun _ => none)
          (tags_to_set "BS-Roformer-SW.ckpt")).2 "REPLAYGAIN_REFERENCE_LOUDNESS"
        = some "-23 LUFS")
    ∧ ((set_flac_tags true (fun _ => none)
          (tags_to_set "BS-Roformer-SW.ckpt")).2 "REPLAYGAIN_ALGORITHM"
        = some "ITU-R BS.1770")
    ∧ ∀ k : String, k ≠ "COMMENT" → k ≠ "DESCRIPTION" →
        k ≠ "REPLAYGAIN_REFERENCE_LOUDNESS" → k ≠ "REPLAYGAIN_ALGORITHM" →
        (set_flac_tags true (fun _ => none) (tags_to_set "BS-Roformer-SW.ckpt")).2 k
          = (fun _ => (none : Option String)) k :=
  c7_tag_stamp "BS-Roformer-SW.ckpt" (fun _ => none) true rfl

/-- C8: in the normalization sub-pipeline a file (present on disk) whose
transcode fails contributes nothing to the MP3 list, a file whose
transcode succeeds contributes its MP3 path, and the metadata-copy
outcome never changes the list. -/
theorem c8_normalization (i : NormInput) (rest : List NormInput)
    (hdisk : i.onDisk = true) :
    (i.transcodeOk = false → buildMp3List (i :: rest) = buildMp3List rest)
    ∧ (i.transcodeOk = true →
        buildMp3List (i :: rest) = mp3Name i.path :: buildMp3List rest)
    ∧ ∀ b : Bool, buildMp3List ({ i with metaOk := b } :: rest) = buildMp3List (i :: rest) := by
  obtain ⟨pa, od, tr, mo⟩ := i
  simp only at hdisk
  subst hdisk
  refine ⟨fun ht => ?_, fun ht => ?_, fun b => ?_⟩
  · simp only at ht
    subst ht
    simp [buildMp3List]
  · simp only at ht
    subst ht
    simp [buildMp3List]
  · cases tr <;> simp [buildMp3List]

/-- Witness for C8: a file whose metadata copy failed is still listed. -/
theorem c8_normalization_witness :
    ((⟨"A - Drumless.flac".data, true, true, false⟩ : NormInput).transcodeOk = false →
      buildMp3List (⟨"A - Drumless.flac".data, true, true, false⟩ :: []) = buildMp3List [])
    ∧ ((⟨"A - Drumless.flac".data, true, true, false⟩ : NormInput).transcodeOk = true →
      buildMp3List (⟨"A - Drumless.flac".data, true, true, false⟩ :: [])
        = mp3Name ("A - Drumless.flac".data) :: buildMp3List [])
    ∧ ∀ b : Bool,
        buildMp3List ({ (⟨"A - Drumless.flac".data, true, true, false⟩ : NormInput) with
            metaOk := b } :: [])
          = buildMp3List (⟨"A - Drumless.flac".data, true, true, false⟩ :: []) :=
  c8_normalization ⟨"A - Drumless.flac".data, true, true, false⟩ [] rfl

/-- C9: `detect_peak_level` and `merge_audio_files` select exactly the
same wav files (sorted, `.wav`-suffixed, no `drums` in the lowercased
name); the selection is empty exactly when `detect_peak_level` returns
`None` despite a parsable peak, and exactly when `merge_audio_files`
fails despite a successful ffmpeg invocation. -/
theorem c9_same_selection (files : List (List Char)) (q : ℚ) (g : Option ℚ)
    (o : Option ℚ) (b : Bool) :
    selectWavs_detect files = selectWavs_merge files
    ∧ (selectWavs_detect files = [] →
        detect_peak_level files o = none ∧ merge_audio_files files g b = false)
    ∧ (detect_peak_level files (some q) = none ↔ selectWavs_merge files = [])
    ∧ (merge_audio_files files g true = false ↔ selectWavs_merge files = []) := by
  have hsel : selectWavs_merge files = selectWavs_detect files := rfl
  refine ⟨rfl, fun h => ⟨?_, ?_⟩, ?_, ?_⟩
  · unfold detect_peak_level
    rw [h]
    rfl
  · unfold merge_audio_files
    rw [hsel, h]
    rfl
  · unfold detect_peak_level
    rw [hsel]
    by_cases he : (selectWavs_detect files).isEmpty = true
    · simp [he, List.isEmpty_eq_true.mp he]
    · simp only [he, if_neg]
      simp [List.isEmpty_eq_true] at he
      simp [he]
  · unfold merge_audio_files
    rw [hsel]
    by_cases he : (selectWavs_detect files).isEmpty = true
    · simp [he, List.isEmpty_eq_true.mp he]
    · simp only [he, if_neg]
      simp [List.isEmpty_eq_true] at he
      simp [he]

/-- Witness for C9: a stem directory holding only a drums stem gives the
empty selection, a `None` peak and a failed merge. -/
theorem c9_same_selection_witness :
    selectWavs_detect ["drums.wav".data] = selectWavs_merge ["drums.wav".data]
    ∧ (selectWavs_detect ["drums.wav".data] = [] →
        detect_peak_level ["drums.wav".data] (some 0) = none
        ∧ merge_audio_files ["drums.wav".data] none true = false)
    ∧ (detect_peak_level ["drums.wav".data] (some 0) = none
        ↔ selectWavs_merge ["drums.wav".data] = [])
    ∧ (merge_audio_files ["drums.wav".data] none true = false
        ↔ selectWavs_merge ["drums.wav".data] = []) :=
  c9_same_selection ["drums.wav".data] 0 none (some 0) true

mutual
/-- Helper: a path is produced by the walk exactly when it reaches a
supported file through kept directories only. -/
theorem mem_walkTree (t : FSTree) (pre p : List Char) :
    p ∈ walkTree t pre ↔
      ∃ dirs f, TreePath t dirs f ∧ (∀ d ∈ dirs, keepDir d = true)
        ∧ extIn f = true ∧ p = joinRel (dirs.foldl joinRel pre) f := by
  cases t with
  | node subs files =>
    simp only [walkTree, List.mem_append, List.mem_map, List.mem_filter]
    constructor
    · rintro (⟨f, ⟨hf, hext⟩, rfl⟩ | hsub)
      · exact ⟨[], f, TreePath.here hf, by simp, hext, by simp⟩
      · obtain ⟨dirs, f, hp, hkeep, hext, rfl⟩ := (mem_walkSubs subs pre p).mp hsub
        exact ⟨dirs, f, TreePath.there hp, hkeep, hext, rfl⟩
    · rintro ⟨dirs, f, hp, hkeep, hext, rfl⟩
      cases hp with
      | here hf => exact Or.inl ⟨f, ⟨hf, hext⟩, by simp⟩
      | there hsub =>
        exact Or.inr ((mem_walkSubs subs pre _).mpr ⟨dirs, f, hsub, hkeep, hext, rfl⟩)

/-- Helper: the same characterization over subdirectory entries. -/
theorem mem_walkSubs (s : FSEntries) (pre p : List Char) :
    p ∈ walkSubs s pre ↔
      ∃ dirs f, EntriesPath s dirs f ∧ (∀ d ∈ dirs, keepDir d = true)
        ∧ extIn f = true ∧ p = joinRel (dirs.foldl joinRel pre) f := by
  cases s with
  | nil =>
    simp only [walkSubs, List.not_mem_nil, false_iff]
    rintro ⟨dirs, f, hp, -, -, -⟩
    cases hp
  | cons d t rest =>
    simp only [walkSubs, List.mem_append]
    by_cases hk : keepDir d = true
    · rw [if_pos hk]
      constructor
      · rintro (hin | hin)
        · obtain ⟨dirs, f, hp, hkeep, hext, rfl⟩ := (mem_walkTree t (joinRel pre d) p).mp hin
          refine ⟨d :: dirs, f, EntriesPath.head hp, ?_, hext, by simp [List.foldl]⟩
          intro x hx
          rcases List.mem_cons.mp hx with rfl | hx
          · exact hk
          · exact hkeep x hx
        · obtain ⟨dirs, f, hp, hkeep, hext, rfl⟩ := (mem_walkSubs rest pre p).mp hin
          exact ⟨dirs, f, EntriesPath.tail hp, hkeep, hext, rfl⟩
      · rintro ⟨dirs, f, hp, hkeep, hext, rfl⟩
        cases hp with
        | head hp' =>
          exact Or.inl ((mem_walkTree t (joinRel pre d) _).mpr
            ⟨_, f, hp', fun x hx => hkeep x (List.mem_cons_of_mem _ hx), hext,
              by simp [List.foldl]⟩)
        | tail hp' =>
          exact Or.inr ((mem_walkSubs rest pre _).mpr ⟨dirs, f, hp', hkeep, hext, rfl⟩)
    · rw [if_neg hk]
      simp only [List.not_mem_nil, false_or]
      constructor
      · intro hin
        obtain ⟨dirs, f, hp, hkeep, hext, rfl⟩ := (mem_walkSubs rest pre p).mp hin
        exact ⟨dirs, f, EntriesPath.tail hp, hkeep, hext, rfl⟩
      · rintro ⟨dirs, f, hp, hkeep, hext, rfl⟩
        cases hp with
        | head hp' => exact absurd (hkeep d (List.mem_cons_self _ _)) hk
        | tail hp' =>
          exact (mem_walkSubs rest pre _).mpr ⟨dirs, f, hp', hkeep, hext, rfl⟩
end

/-- Helper: the directory filter unfolded into the claim's two clauses. -/
theorem keepDir_eq_true_iff (d : List Char) :
    keepDir d = true ↔
      (lowerL d ≠ "separated".data
        ∧ "normalised".data.isPrefixOf (lowerL d) = false) := by
  simp [keepDir]

/-- C6: a path is returned by discovery exactly when it reaches a file
with a supported (lowercased) extension through directories none of which
is named `separated` (case-insensitively) or starts with `normalised`
(lowercased) — exclusion applies at every depth; and the returned list is
sorted case-insensitively.  Discovery is a pure function of the tree, so
the result is deterministic. -/
theorem c6_discovery (t : FSTree) (p : List Char) :
    (p ∈ find_audio_files t ↔
      ∃ dirs f, TreePath t dirs f
        ∧ (∀ d ∈ dirs, lowerL d ≠ "separated".data
            ∧ "normalised".data.isPrefixOf (lowerL d) = false)
        ∧ SUPPORTED_INPUT_EXTENSIONS.contains (lowerL (extStr f)) = true
        ∧ p = joinRel (dirs.foldl joinRel []) f)
    ∧ List.Sorted pathLe (find_audio_files t) := by
  constructor
  · rw [find_audio_files, List.mem_insertionSort, mem_walkTree]
    constructor
    · rintro ⟨dirs, f, hp, hkeep, hext, rfl⟩
      exact ⟨dirs, f, hp, fun d hd => (keepDir_eq_true_iff d).mp (hkeep d hd), hext, rfl⟩
    · rintro ⟨dirs, f, hp, hkeep, hext, rfl⟩
      exact ⟨dirs, f, hp, fun d hd => (keepDir_eq_true_iff d).mpr (hkeep d hd), hext, rfl⟩
  · exact List.sorted_insertionSort pathLe _

end Demux
